import Mathlib

/-!
Package `between`: route table, rotation pools and request dispatch.

Shallow embedding of `between.go` (package `between`): the configuration data
model, `Between.Run`, `Frontend.Run`, `RequestHandler.Backend` and the routing
part of `RequestHandler.ServeHTTP`.

Modelling conventions.
* A Go `string` is a Lean `String`; `+` is `++`, and `strings.HasPrefix`
  compares the leading elements of the two sequences.
* A Go `map[string][]string` is a list of key/value pairs; a `range` over the
  map visits the pairs in the order of the list, and the theorems that depend on
  a map quantify over every enumeration order of its pairs.
* A buffered `chan string` is its capacity together with the queue of buffered
  values. A receive on an empty buffer, or a send on a full one, made while no
  other goroutine touches the channel never completes: the operation is `none`.
* Standard-library functions whose text is not part of the package
  (`net.SplitHostPort`, `strings.ToLower`) are parameters of the functions that
  call them.
-/

namespace between

/-! ## Channels -/

/-- Buffered `chan string`: the capacity given to `make` and the buffered values, oldest first. -/
structure Chan where
  cap : Nat
  buf : List String
deriving DecidableEq, Repr

/-- Go `make(chan string, n)`: an empty channel of capacity `n`. -/
def Chan.make (n : Nat) : Chan := ⟨n, []⟩

/-- Go `ch <- v` with no receiver waiting: completes iff the buffer has room. -/
def Chan.send (c : Chan) (v : String) : Option Chan :=
  if c.buf.length < c.cap then some ⟨c.cap, c.buf ++ [v]⟩ else none

/-- Go `<-ch` with no sender waiting: completes iff the buffer is non-empty, taking the oldest value. -/
def Chan.recv (c : Chan) : Option (String × Chan) :=
  match c.buf with
  | [] => none
  | v :: rest => some (v, ⟨c.cap, rest⟩)

/-! ## Strings and maps -/

/-- Go `strings.HasPrefix(s, p)`: `len(s) >= len(p) && s[0:len(p)] == p`. -/
def HasPrefix (s p : String) : Bool :=
  decide (p.data.length ≤ s.data.length) && decide (s.data.take p.data.length = p.data)

/-- Go `map[string][]string`, as the list of its key/value pairs in enumeration order. -/
abbrev GoMap := List (String × List String)

/-- Go `m[k]` on a `map[string][]string`: the value stored under `k`, the nil slice when absent. -/
def GoMap.index (m : GoMap) (k : String) : List String :=
  match m with
  | [] => []
  | (k1, v) :: rest => if k1 = k then v else GoMap.index rest k

/-- Go `m[k] = v`. -/
def GoMap.assign (m : GoMap) (k : String) (v : List String) : GoMap :=
  match m with
  | [] => [(k, v)]
  | (k1, v1) :: rest => if k1 = k then (k, v) :: rest else (k1, v1) :: GoMap.assign rest k v

/-- Go `http.Header.Add(key, value)` for a key already in canonical form: `h[key] = append(h[key], value)`. -/
def HeaderAdd (h : GoMap) (key value : String) : GoMap :=
  GoMap.assign h key (GoMap.index h key ++ [value])

/-! ## Data model -/

/-- Go `type Frontend struct`. -/
structure Frontend where
  Name : String
  Bind : String
  Paths : List String
  XForwardedFor : Bool
  Https : Bool
  Keyfile : String
  Certfile : String
  Active : Bool
deriving DecidableEq, Repr

/-- Go `type Config struct`. -/
structure Config where
  Frontends : List Frontend
  Paths : GoMap
deriving DecidableEq, Repr

/-- Dynamic values stored in `PathBackends []interface{}` slots: a `string` or a `chan string`. -/
inductive Iface where
  | str (s : String)
  | chan (c : Chan)
deriving DecidableEq, Repr

/-- One element of `PathBackends`: the two-element slice `[]interface{}{path, ch}`. -/
abbrev Entry := Iface × Iface

/-- Go `type RequestHandler struct` (the `Transport` field is a constant of `Frontend.Run`). -/
structure RequestHandler where
  Frontend : Frontend
  PathBackends : List Entry
deriving DecidableEq, Repr

/-! ## `RequestHandler.Backend` -/

/-- Lines 76-77 of `between.go`: `backend = <-pathChan; pathChan <- backend`. -/
def borrowReturn (c : Chan) : Option (String × Chan) :=
  match c.recv with
  | none => none
  | some (backend, c1) =>
    match c1.send backend with
    | none => none
    | some c2 => some (backend, c2)

/-- A loop iteration of `Backend` that leaves entry `e` untouched (`continue`, or a failed
`HasPrefix` test): the result is that of the remaining iterations. -/
def nextEntry (e : Entry) (r : Option (String × List Entry)) : Option (String × List Entry) :=
  match r with
  | none => none
  | some (backend, rest2) => some (backend, e :: rest2)

/-- The loop of `RequestHandler.Backend` over `rh.PathBackends`, with `backend := ""` when the
loop ends without a `break`. The result is the returned string and the table after the call;
`none` when the call blocks on the channel. -/
def Backend : List Entry → String → Option (String × List Entry)
  | [], _ => some ("", [])
  | e :: rest, reqPath =>
    match e.1 with
    | Iface.str p =>
      if HasPrefix reqPath p then
        match e.2 with
        | Iface.chan c =>
          match borrowReturn c with
          | none => none
          | some (backend, c2) => some (backend, (e.1, Iface.chan c2) :: rest)
        | _ => nextEntry e (Backend rest reqPath)
      else nextEntry e (Backend rest reqPath)
    | _ => nextEntry e (Backend rest reqPath)

/-- Sequential calls of `Backend`, one per routing key, each on the table left by the one before. -/
def Backends : List Entry → List String → Option (List String × List Entry)
  | t, [] => some ([], t)
  | t, k :: ks =>
    match Backend t k with
    | none => none
    | some (b, t1) =>
      match Backends t1 ks with
      | none => none
      | some (bs, t2) => some (b :: bs, t2)

/-! ## `Frontend.Run` and `Between.Run` -/

/-- Lines 174-176: `for _, backend := range backends { ch <- backend }`. -/
def loadChan (ch : Chan) : List String → Option Chan
  | [] => some ch
  | backend :: rest =>
    match ch.send backend with
    | none => none
    | some ch1 => loadChan ch1 rest

/-- Lines 172-179: the loop over one `mapping`, appending `[]interface{}{path, ch}` per pair. -/
def runMapping (pathBackends : List Entry) : GoMap → Option (List Entry)
  | [] => some pathBackends
  | (path, backends) :: rest =>
    match loadChan (Chan.make backends.length) backends with
    | none => none
    | some ch => runMapping (pathBackends ++ [(Iface.str path, Iface.chan ch)]) rest

/-- Lines 171-180: the loop over `paths`. -/
def runPaths (pathBackends : List Entry) : List GoMap → Option (List Entry)
  | [] => some pathBackends
  | mapping :: rest =>
    match runMapping pathBackends mapping with
    | none => none
    | some pb => runPaths pb rest

/-- The request handler built by `Frontend.Run` (lines 167-189) before the server starts. -/
def Frontend.Run (f : Frontend) (paths : List GoMap) : Option RequestHandler :=
  match runPaths [] paths with
  | none => none
  | some pathBackends => some ⟨f, pathBackends⟩

/-- Lines 220-226: the `range` over `b.Config.Paths` for one declared key `h`, enumerating the
map in the order `it`; on the first `path == h` the one-pair map is appended and the loop breaks. -/
def findPath (h : String) (paths : List GoMap) : GoMap → List GoMap
  | [] => paths
  | (path, backend) :: rest =>
    if path = h then paths ++ [[(path, backend)]] else findPath h paths rest

/-- Lines 218-227: the loop over `frontend.Paths`. -/
def collectPaths (it : GoMap) (paths : List GoMap) : List String → List GoMap
  | [] => paths
  | h :: rest => collectPaths it (findPath h paths it) rest

/-- The calls `go frontend.Run(paths)` made by `Between.Run`, in order: one per active frontend. -/
def Between.Run (c : Config) : List (Frontend × List GoMap) :=
  (c.Frontends.filter (fun f => f.Active)).map (fun f => (f, collectPaths c.Paths [] f.Paths))


/-! ## `RequestHandler.ServeHTTP` -/

/-- The fields of `*http.Request` that `ServeHTTP` reads or writes. -/
structure Request where
  RequestURI : String
  URLScheme : String
  URLHost : String
  URLPath : String
  Host : String
  RemoteAddr : String
  Header : GoMap
deriving DecidableEq, Repr

/-- What `ServeHTTP` does with a request: reply with a status of its own, forward the request
with `rh.Transport.RoundTrip(r)` (`case false`), or hijack the connection and dial
`r.URL.Host` (`case true`). -/
inductive Served where
  | reply (status : Nat)
  | roundTrip (r : Request)
  | tunnel (r : Request)
deriving DecidableEq, Repr

/-- Go `http.StatusNotFound`. -/
def StatusNotFound : Nat := 404

/-- Go `http.NotFound(w, r)`: replies to the request with a 404. -/
def NotFound : Served := Served.reply StatusNotFound

/-- Lines 110-115: the `isWebsocket` flag computed from `r.Header`. -/
def isWebsocket (ToLower : String → String) (header : GoMap) : Bool :=
  if 0 < (GoMap.index header "Connection").length ∧ 0 < (GoMap.index header "Upgrade").length then
    match GoMap.index header "Upgrade" with
    | [] => false
    | v :: _ => if ToLower v = "websocket" then true else false
  else false

/-- Lines 90-95: the `X-Forwarded-For` step. -/
def addForwardedFor (SplitHostPort : String → Option (String × String)) (rh : RequestHandler)
    (r : Request) : Request :=
  if rh.Frontend.XForwardedFor then
    match SplitHostPort r.RemoteAddr with
    | some (remoteAddr, _) => { r with Header := HeaderAdd r.Header "X-Forwarded-For" remoteAddr }
    | none => r
  else r

/-- Go `RequestHandler.ServeHTTP` up to the `switch isWebsocket`: the action taken and the handler
state after the call; `none` when the call to `Backend` blocks. `SplitHostPort` stands for
`net.SplitHostPort` (`none` for a non-nil `err`) and `ToLower` for `strings.ToLower`. -/
def ServeHTTP (SplitHostPort : String → Option (String × String)) (ToLower : String → String)
    (rh : RequestHandler) (r : Request) : Option (Served × RequestHandler) :=
  let r1 : Request := { r with RequestURI := "", URLScheme := "http" }
  let r2 := addForwardedFor SplitHostPort rh r1
  match SplitHostPort r2.Host with
  | none => some (NotFound, rh)
  | some (reqPath, _) =>
    match Backend rh.PathBackends (reqPath ++ r2.URLPath) with
    | none => none
    | some (backend, pathBackends) =>
      if backend = "" then some (NotFound, ⟨rh.Frontend, pathBackends⟩)
      else
        let r3 : Request := { r2 with URLHost := backend }
        if isWebsocket ToLower r3.Header then some (Served.tunnel r3, ⟨rh.Frontend, pathBackends⟩)
        else some (Served.roundTrip r3, ⟨rh.Frontend, pathBackends⟩)

/-- Sequential requests served by one handler, each on the state left by the one before. -/
def ServeAll (SplitHostPort : String → Option (String × String)) (ToLower : String → String) :
    RequestHandler → List Request → Option (List Served × RequestHandler)
  | rh, [] => some ([], rh)
  | rh, r :: rs =>
    match ServeHTTP SplitHostPort ToLower rh r with
    | none => none
    | some (s, rh1) =>
      match ServeAll SplitHostPort ToLower rh1 rs with
      | none => none
      | some (ss, rh2) => some (s :: ss, rh2)

/-- The backend a served request was sent to (`r.URL.Host`), if it was sent to one. -/
def Served.backend : Served → Option String
  | Served.reply _ => none
  | Served.roundTrip r => some r.URLHost
  | Served.tunnel r => some r.URLHost

/-! ## Instances of the standard-library parameters -/

/-- Position of the first `c` in `l`, if any (Go `bytealg.IndexByteString`). -/
def indexByte (l : List Char) (c : Char) : Option Nat :=
  match l with
  | [] => none
  | x :: rest => if x = c then some 0 else (indexByte rest c).map (fun n => n + 1)

/-- Position of the last `c` in `l`, if any (Go `bytealg.LastIndexByteString`). -/
def lastIndexByte (l : List Char) (c : Char) : Option Nat :=
  match l with
  | [] => none
  | x :: rest =>
    match lastIndexByte rest c with
    | some n => some (n + 1)
    | none => if x = c then some 0 else none

/-- Go standard library `net.SplitHostPort` (package `net`, outside this repository), written out
so that the `SplitHostPort` parameter of `ServeHTTP` can be instantiated; `none` is a non-nil
`err`. The port starts after the last colon; a host in brackets must end right before it. -/
def netSplitHostPort (hostport : String) : Option (String × String) :=
  let hp := hostport.data
  match lastIndexByte hp ':' with
  | none => none
  | some i =>
    let checked : Option (List Char × Nat × Nat) :=
      if hp.head? = some '[' then
        match indexByte hp ']' with
        | none => none
        | some e =>
          if e + 1 = hp.length then none
          else if e + 1 = i then some ((hp.take e).drop 1, 1, e + 1)
          else none
      else
        if (indexByte (hp.take i) ':').isSome then none else some (hp.take i, 0, 0)
    match checked with
    | none => none
    | some (host, j, k) =>
      if (indexByte (hp.drop j) '[').isSome then none
      else if (indexByte (hp.drop k) ']').isSome then none
      else some (String.mk host, String.mk (hp.drop (i + 1)))

/-- Go `strings.ToLower` restricted to ASCII text: upper-case Latin letters `A`-`Z` are mapped
to lower case and every other character is left alone, whereas the library function also lowers
non-ASCII letters. It agrees with `strings.ToLower` on ASCII input and is used only to
instantiate the `ToLower` parameter at ASCII values. -/
def asciiToLower (s : String) : String := String.mk (s.data.map Char.toLower)

/-! ## One rotation pool under concurrent callers -/

/-- The two channel operations of a selection, made by goroutine `g`: the receive of line 76
and the send of line 77. -/
inductive PoolOp where
  | borrow (g : Nat)
  | giveBack (g : Nat)
deriving DecidableEq, Repr

/-- One pool shared by concurrent callers of `Backend`: the channel, the goroutines that are
between line 76 and line 77 with the address each holds in its local `backend`, and the history
of addresses received and sent back so far. -/
structure PoolState where
  pool : Chan
  held : List (Nat × String)
  borrowed : List String
  returned : List String
deriving DecidableEq, Repr

/-- Address held by goroutine `g`, if it is between its receive and its send. -/
def heldBy (held : List (Nat × String)) (g : Nat) : Option String :=
  match held with
  | [] => none
  | (g1, b) :: rest => if g1 = g then some b else heldBy rest g

/-- The pool of a route-table entry as `Frontend.Run` leaves it, with no selection in progress. -/
def PoolState.init (backends : List String) : PoolState :=
  ⟨⟨backends.length, backends⟩, [], [], []⟩

/-- One atomic step. `borrow g` is goroutine `g` completing `backend = <-pathChan`; `giveBack g`
is `g` completing `pathChan <- backend`. `none` when the step cannot be taken in this state
(the goroutine is not at that line, or the channel operation would block). -/
def PoolState.step (s : PoolState) : PoolOp → Option PoolState
  | PoolOp.borrow g =>
    match heldBy s.held g with
    | some _ => none
    | none =>
      match s.pool.recv with
      | none => none
      | some (b, c) => some ⟨c, s.held ++ [(g, b)], s.borrowed ++ [b], s.returned⟩
  | PoolOp.giveBack g =>
    match heldBy s.held g with
    | none => none
    | some b =>
      match s.pool.send b with
      | none => none
      | some c => some ⟨c, s.held.filter (fun x => x.1 ≠ g), s.borrowed, s.returned ++ [b]⟩

/-- An interleaving of steps, taken in order. -/
def PoolState.run (s : PoolState) : List PoolOp → Option PoolState
  | [] => some s
  | op :: ops =>
    match s.step op with
    | none => none
    | some s1 => PoolState.run s1 ops

/-- Selections that do not overlap: every `borrow g` is followed at once by `giveBack g`. -/
def nonOverlapping : List PoolOp → Bool
  | [] => true
  | [PoolOp.borrow _] => true
  | PoolOp.borrow g :: PoolOp.giveBack g1 :: rest => decide (g = g1) && nonOverlapping rest
  | _ => false

/-- The list `log` is `backends` repeated cyclically: its `i`-th element is element
`i mod N` of `backends`. -/
def CyclicRepeat (backends log : List String) : Prop :=
  ∀ i, i < log.length → log[i]? = backends[i % backends.length]?

/-- The route-table entry `Frontend.Run` is expected to build for one key/backends pair: the key
and a channel of capacity `len(backends)` holding the backends in configured order. -/
def entryOf (kv : String × List String) : Entry :=
  (Iface.str kv.1, Iface.chan ⟨kv.2.length, kv.2⟩)

/-- Keys of a map. -/
def GoMap.keys (m : GoMap) : List String := m.map Prod.fst

/-- Table `t` holds, entry by entry, the keys of `cfg` in order, each with a channel whose
capacity is the number of configured backends and whose content is the configured backend
list rotated by some number of places. -/
def Rotated (cfg : GoMap) (t : List Entry) : Prop :=
  List.Forall₂
    (fun kv e => ∃ k, e = (Iface.str kv.1, Iface.chan ⟨kv.2.length, kv.2.rotate k⟩)) cfg t

/-- Routing key `key` resolves to the `i`-th pair of `cfg`: that pair's key is a string-prefix
of `key` and no earlier pair's key is. -/
def ResolvesTo (cfg : GoMap) (i : Nat) (key : String) : Prop :=
  (∃ kv, cfg[i]? = some kv ∧ kv.1.data <+: key.data)
    ∧ ∀ j, j < i → ∀ kv, cfg[j]? = some kv → ¬ kv.1.data <+: key.data

/-- Invariant of a pool shared by concurrent callers: the addresses borrowed so far followed by
the channel content are the configured backends followed by the addresses given back so far;
the capacity is the number of configured backends; a pool configured empty hands out nothing. -/
def PoolInv (backends : List String) (s : PoolState) : Prop :=
  s.borrowed ++ s.pool.buf = backends ++ s.returned
    ∧ s.pool.cap = backends.length
    ∧ (backends = [] → s.borrowed = [] ∧ s.pool.buf = [])

/-! ## Configurations used as examples -/

/-- The configuration of `between_test.go`. -/
def testConfig : Config :=
  ⟨[⟨"server1", "0.0.0.0:9010", ["localhost/google", "localhost", "127.0.0.1", "localhost/v1/ping"],
      true, false, "", "", true⟩,
    ⟨"server2 tls", "0.0.0.0:443", ["localhost", "127.0.0.1"],
      true, true, "/path/to/key.pem", "/path/to/cert.pem", false⟩],
   [("localhost/search", ["google.com", "yahoo.com"]),
    ("localhost/v1/ping", ["localhost:9000"]),
    ("localhost", ["localhost:9010", "localhost:9009"]),
    ("loco.localhost", ["localhost:9011", "localhost:9012"])]⟩

/-- A configuration whose only path key has an empty backend list. -/
def emptyPoolConfig : Config :=
  ⟨[⟨"server1", ":9010", ["localhost"], false, false, "", "", true⟩], [("localhost", [])]⟩

/-- The map of the routing scenario. -/
def scenarioPaths : GoMap := [("localhost/google", ["a:1"]), ("localhost", ["b:1", "b:2"])]

/-- The frontend `server1` of the routing scenario. -/
def scenarioServer1 : Frontend :=
  ⟨"server1", ":9010", ["localhost/google", "localhost"], false, false, "", "", true⟩

/-- The configuration of the routing scenario. -/
def scenarioConfig : Config := ⟨[scenarioServer1], scenarioPaths⟩

/-- The route table of the routing scenario. -/
def scenarioTable : List Entry :=
  [(Iface.str "localhost/google", Iface.chan ⟨1, ["a:1"]⟩),
   (Iface.str "localhost", Iface.chan ⟨2, ["b:1", "b:2"]⟩)]

/-- Request `r` addressed to `host` with URL path `path`. -/
def requestTo (r : Request) (host path : String) : Request :=
  { r with Host := host, URLPath := path }

/-- A request with every field empty. -/
def emptyRequest : Request := ⟨"", "", "", "", "", "", []⟩

/-- The `paths` argument that `Between.Run` passes to `Frontend.Run` for `server1` of
`testConfig`. -/
def testPaths : List GoMap :=
  [[("localhost", ["localhost:9010", "localhost:9009"])], [("localhost/v1/ping", ["localhost:9000"])]]

/-- The frontend `server1` of `testConfig`. -/
def testServer1 : Frontend :=
  ⟨"server1", "0.0.0.0:9010", ["localhost/google", "localhost", "127.0.0.1", "localhost/v1/ping"],
    true, false, "", "", true⟩

/-- The route table of `server1` in `testConfig`. -/
def testTable : List Entry :=
  [(Iface.str "localhost", Iface.chan ⟨2, ["localhost:9010", "localhost:9009"]⟩),
   (Iface.str "localhost/v1/ping", Iface.chan ⟨1, ["localhost:9000"]⟩)]

/-! ## Basic facts -/

theorem HasPrefix_iff (s p : String) : HasPrefix s p = true ↔ p.data <+: s.data := by
  unfold HasPrefix
  rw [List.prefix_iff_eq_take]
  simp only [Bool.and_eq_true, decide_eq_true_eq]
  constructor
  · rintro ⟨_, h⟩
    exact h.symm
  · intro h
    refine ⟨?_, h.symm⟩
    have h2 := congrArg List.length h
    rw [List.length_take] at h2
    omega

theorem HasPrefix_eq_false_iff (s p : String) : HasPrefix s p = false ↔ ¬ p.data <+: s.data := by
  rw [← HasPrefix_iff]
  simp

theorem borrowReturn_cons (cap : Nat) (b : String) (rest : List String) (h : rest.length < cap) :
    borrowReturn ⟨cap, b :: rest⟩ = some (b, ⟨cap, rest ++ [b]⟩) := by
  simp [borrowReturn, Chan.recv, Chan.send, h]

theorem borrowReturn_nil (cap : Nat) : borrowReturn ⟨cap, []⟩ = none := by
  simp [borrowReturn, Chan.recv]

theorem loadChan_eq (n : Nat) (bs pre : List String) (h : pre.length + bs.length ≤ n) :
    loadChan ⟨n, pre⟩ bs = some ⟨n, pre ++ bs⟩ := by
  induction bs generalizing pre with
  | nil => simp [loadChan]
  | cons b bs ih =>
    have h1 : pre.length < n := by simp at h; omega
    have h2 : (pre ++ [b]).length + bs.length ≤ n := by simp at h ⊢; omega
    simp [loadChan, Chan.send, h1, ih (pre ++ [b]) h2]

theorem loadChan_make (bs : List String) :
    loadChan (Chan.make bs.length) bs = some ⟨bs.length, bs⟩ := by
  have h := loadChan_eq bs.length bs [] (by simp)
  simpa [Chan.make] using h

theorem runMapping_eq (acc : List Entry) (m : GoMap) :
    runMapping acc m = some (acc ++ m.map entryOf) := by
  induction m generalizing acc with
  | nil => simp [runMapping]
  | cons kv m ih =>
    obtain ⟨path, backends⟩ := kv
    simp [runMapping, loadChan_make, ih, entryOf]

theorem runPaths_eq (acc : List Entry) (paths : List GoMap) :
    runPaths acc paths = some (acc ++ paths.flatten.map entryOf) := by
  induction paths generalizing acc with
  | nil => simp [runPaths]
  | cons m paths ih => simp [runPaths, runMapping_eq, ih]

theorem Frontend_Run_eq (f : Frontend) (paths : List GoMap) :
    f.Run paths = some ⟨f, paths.flatten.map entryOf⟩ := by
  simp [Frontend.Run, runPaths_eq]

theorem findPath_eq (h : String) (acc : List GoMap) (it : GoMap) :
    findPath h acc it
      = if h ∈ GoMap.keys it then acc ++ [[(h, GoMap.index it h)]] else acc := by
  induction it with
  | nil => simp [findPath, GoMap.keys]
  | cons kv it ih =>
    obtain ⟨path, backend⟩ := kv
    by_cases hp : path = h
    · subst hp
      simp [findPath, GoMap.keys, GoMap.index]
    · have hp2 : ¬ h = path := fun e => hp e.symm
      simp only [findPath, hp, if_false, ih, GoMap.keys, GoMap.index, List.map_cons,
        List.mem_cons, hp2, false_or]

theorem collectPaths_eq (it : GoMap) (acc : List GoMap) (hs : List String) :
    collectPaths it acc hs
      = acc ++ (hs.filter (fun h => decide (h ∈ GoMap.keys it))).map
          (fun h => [(h, GoMap.index it h)]) := by
  induction hs generalizing acc with
  | nil => simp [collectPaths]
  | cons h hs ih =>
    simp only [collectPaths, ih, findPath_eq, List.filter_cons]
    by_cases hk : h ∈ GoMap.keys it
    · simp [hk]
    · simp [hk]

theorem index_mem (m : GoMap) (h : String) (hk : h ∈ GoMap.keys m) :
    (h, GoMap.index m h) ∈ m := by
  induction m with
  | nil => simp [GoMap.keys] at hk
  | cons kv m ih =>
    obtain ⟨k, v⟩ := kv
    by_cases hp : k = h
    · subst hp
      simp [GoMap.index]
    · have hk2 : h ∈ GoMap.keys m := by
        simp only [GoMap.keys, List.map_cons, List.mem_cons] at hk
        rcases hk with hk | hk
        · exact absurd hk.symm hp
        · exact hk
      simp only [GoMap.index, hp, if_false, List.mem_cons]
      exact Or.inr (ih hk2)

/-! ## `Backend`: which entry is selected -/

theorem Backend_no_match (t : List Entry) (key : String)
    (hno : ∀ e ∈ t, ∀ p, e.1 = Iface.str p → HasPrefix key p = false) :
    Backend t key = some ("", t) := by
  induction t with
  | nil => simp [Backend]
  | cons e t ih =>
    have iht := ih (fun e1 he1 => hno e1 (List.mem_cons_of_mem _ he1))
    obtain ⟨e1, e2⟩ := e
    cases e1 with
    | str p =>
      have hp := hno (Iface.str p, e2) (List.mem_cons_self _ _) p rfl
      simp [Backend, hp, iht, nextEntry]
    | chan c => simp [Backend, iht, nextEntry]

theorem Backend_first_match (pre post : List Entry) (p : String) (c : Chan) (key : String)
    (hpre : ∀ e ∈ pre, ∀ q, e.1 = Iface.str q → HasPrefix key q = false)
    (hp : HasPrefix key p = true) :
    Backend (pre ++ (Iface.str p, Iface.chan c) :: post) key
      = match borrowReturn c with
        | none => none
        | some (b, c2) => some (b, pre ++ (Iface.str p, Iface.chan c2) :: post) := by
  induction pre with
  | nil =>
    simp only [List.nil_append, Backend, hp, if_true]
  | cons e pre ih =>
    have ihp := ih (fun e1 he1 => hpre e1 (List.mem_cons_of_mem _ he1))
    obtain ⟨e1, e2⟩ := e
    cases hbr : borrowReturn c with
    | none =>
      rw [hbr] at ihp
      cases e1 with
      | str q =>
        have hq := hpre (Iface.str q, e2) (List.mem_cons_self _ _) q rfl
        simp [Backend, hq, ihp, nextEntry]
      | chan d => simp [Backend, ihp, nextEntry]
    | some r =>
      rw [hbr] at ihp
      obtain ⟨b, c2⟩ := r
      cases e1 with
      | str q =>
        have hq := hpre (Iface.str q, e2) (List.mem_cons_self _ _) q rfl
        simp [Backend, hq, ihp, nextEntry]
      | chan d => simp [Backend, ihp, nextEntry]

theorem borrowReturn_some (c : Chan) (b : String) (c2 : Chan) (h : borrowReturn c = some (b, c2)) :
    ∃ rest, c.buf = b :: rest ∧ rest.length < c.cap ∧ c2 = ⟨c.cap, rest ++ [b]⟩ := by
  obtain ⟨cap, buf⟩ := c
  cases buf with
  | nil => simp [borrowReturn, Chan.recv] at h
  | cons x rest =>
    by_cases hl : rest.length < cap
    · rw [borrowReturn_cons cap x rest hl] at h
      simp only [Option.some.injEq, Prod.mk.injEq] at h
      obtain ⟨h1, h2⟩ := h
      subst h1
      exact ⟨rest, rfl, hl, h2.symm⟩
    · simp [borrowReturn, Chan.recv, Chan.send, hl] at h

/-! ## Rotation invariant of the pools -/

theorem nextEntry_some (e : Entry) (r : Option (String × List Entry)) (b : String)
    (t2 : List Entry) (h : nextEntry e r = some (b, t2)) :
    ∃ t3, r = some (b, t3) ∧ t2 = e :: t3 := by
  cases r with
  | none => simp [nextEntry] at h
  | some x =>
    obtain ⟨b1, t3⟩ := x
    simp only [nextEntry, Option.some.injEq, Prod.mk.injEq] at h
    exact ⟨t3, by rw [h.1], h.2.symm⟩

theorem Rotated_entryOf (cfg : GoMap) : Rotated cfg (cfg.map entryOf) := by
  induction cfg with
  | nil => exact List.Forall₂.nil
  | cons kv cfg ih =>
    exact List.Forall₂.cons ⟨0, by simp [entryOf]⟩ ih

theorem rotate_succ_of_cons (bs : List String) (k : Nat) (b : String) (rest : List String)
    (h : bs.rotate k = b :: rest) : bs.rotate (k + 1) = rest ++ [b] := by
  rw [← List.rotate_rotate, h, List.rotate_cons_succ, List.rotate_zero]

theorem Rotated_Backend (cfg : GoMap) (t : List Entry) (key b : String) (t2 : List Entry)
    (hr : Rotated cfg t) (h : Backend t key = some (b, t2)) : Rotated cfg t2 := by
  unfold Rotated at hr ⊢
  induction hr generalizing t2 with
  | nil =>
    simp only [Backend, Option.some.injEq, Prod.mk.injEq] at h
    rw [← h.2]
    exact List.Forall₂.nil
  | @cons kv e cfg1 t1 hR hrest ih =>
    obtain ⟨k, rfl⟩ := hR
    by_cases hq : HasPrefix key kv.1 = true
    · simp only [Backend, hq, if_true] at h
      cases hbr : borrowReturn ⟨kv.2.length, kv.2.rotate k⟩ with
      | none => simp [hbr] at h
      | some r =>
        obtain ⟨b1, c2⟩ := r
        simp only [hbr, Option.some.injEq, Prod.mk.injEq] at h
        obtain ⟨rest, hr1, _, hr3⟩ := borrowReturn_some _ b1 c2 hbr
        rw [← h.2, hr3]
        refine List.Forall₂.cons ⟨k + 1, ?_⟩ hrest
        rw [rotate_succ_of_cons kv.2 k b1 rest hr1]
    · have h2 : nextEntry (Iface.str kv.1, Iface.chan ⟨kv.2.length, kv.2.rotate k⟩)
          (Backend t1 key) = some (b, t2) := by simpa [Backend, hq] using h
      obtain ⟨t3, h3, h4⟩ := nextEntry_some _ _ _ _ h2
      rw [h4]
      exact List.Forall₂.cons ⟨k, rfl⟩ (ih t3 h3)

theorem Rotated_Backends (cfg : GoMap) (keys : List String) (t : List Entry) (outs : List String)
    (t2 : List Entry) (hr : Rotated cfg t) (h : Backends t keys = some (outs, t2)) :
    Rotated cfg t2 := by
  induction keys generalizing t outs with
  | nil =>
    simp only [Backends, Option.some.injEq, Prod.mk.injEq] at h
    rw [← h.2]
    exact hr
  | cons key keys ih =>
    simp only [Backends] at h
    cases hb : Backend t key with
    | none => simp [hb] at h
    | some r =>
      obtain ⟨b, t1⟩ := r
      simp only [hb] at h
      cases hbs : Backends t1 keys with
      | none => simp [hbs] at h
      | some r2 =>
        obtain ⟨bs, t3⟩ := r2
        simp only [hbs, Option.some.injEq, Prod.mk.injEq] at h
        obtain ⟨_, h2⟩ := h
        subst h2
        exact ih t1 bs (Rotated_Backend cfg t key b t1 hr hb) hbs

/-- In a table related to `cfg` by `Rotated`, the entry at the place of the `i`-th pair. -/
theorem Rotated_split (cfg : GoMap) (t : List Entry) (i : Nat) (kv : String × List String)
    (hr : Rotated cfg t) (hi : cfg[i]? = some kv) :
    ∃ pre post k, t = pre ++ (Iface.str kv.1, Iface.chan ⟨kv.2.length, kv.2.rotate k⟩) :: post
      ∧ ∀ e ∈ pre, ∀ q, e.1 = Iface.str q →
          ∃ j kvj, j < i ∧ cfg[j]? = some kvj ∧ kvj.1 = q := by
  unfold Rotated at hr
  induction hr generalizing i with
  | nil => simp at hi
  | @cons kv0 e cfg1 t1 hR hrest ih =>
    cases i with
    | zero =>
      simp only [List.getElem?_cons_zero, Option.some.injEq] at hi
      subst hi
      obtain ⟨k, rfl⟩ := hR
      exact ⟨[], t1, k, rfl, by simp⟩
    | succ n =>
      simp only [List.getElem?_cons_succ] at hi
      obtain ⟨pre, post, k, h1, h2⟩ := ih n hi
      obtain ⟨k0, rfl⟩ := hR
      refine ⟨(Iface.str kv0.1, Iface.chan ⟨kv0.2.length, kv0.2.rotate k0⟩) :: pre, post, k,
        by rw [h1]; rfl, ?_⟩
      intro e he q hq
      rcases List.mem_cons.mp he with he | he
      · subst he
        simp only [Iface.str.injEq] at hq
        exact ⟨0, kv0, Nat.succ_pos n, List.getElem?_cons_zero, hq⟩
      · obtain ⟨j, kvj, hj1, hj2, hj3⟩ := h2 e he q hq
        exact ⟨j + 1, kvj, Nat.succ_lt_succ hj1, by simpa using hj2, hj3⟩

theorem ResolvesTo_pre (cfg : GoMap) (i : Nat) (key : String) (pre : List Entry)
    (hres : ResolvesTo cfg i key)
    (hpre : ∀ e ∈ pre, ∀ q, e.1 = Iface.str q →
      ∃ j kvj, j < i ∧ cfg[j]? = some kvj ∧ kvj.1 = q) :
    ∀ e ∈ pre, ∀ q, e.1 = Iface.str q → HasPrefix key q = false := by
  intro e he q hq
  obtain ⟨j, kvj, hj1, hj2, hj3⟩ := hpre e he q hq
  rw [HasPrefix_eq_false_iff, ← hj3]
  exact hres.2 j hj1 kvj hj2

/-- Consecutive calls that all select the same entry hand out the head of its channel, then the
next value, and so on, leaving the channel rotated by the number of calls. -/
theorem Backends_same_entry (pre post : List Entry) (p : String) (cap : Nat) (keys : List String)
    (buf : List String) (hcap : buf.length = cap) (hk : keys.length ≤ buf.length)
    (hres : ∀ key ∈ keys, HasPrefix key p = true
      ∧ ∀ e ∈ pre, ∀ q, e.1 = Iface.str q → HasPrefix key q = false) :
    Backends (pre ++ (Iface.str p, Iface.chan ⟨cap, buf⟩) :: post) keys
      = some (buf.take keys.length,
          pre ++ (Iface.str p,
            Iface.chan ⟨cap, buf.drop keys.length ++ buf.take keys.length⟩) :: post) := by
  induction keys generalizing buf with
  | nil => simp [Backends]
  | cons key ks ih =>
    cases buf with
    | nil => simp at hk
    | cons b rest =>
      have hkey := hres key (List.mem_cons_self _ _)
      have hlt : rest.length < cap := by simp at hcap; omega
      have hks : ks.length ≤ rest.length := by simpa using hk
      have hfm := Backend_first_match pre post p ⟨cap, b :: rest⟩ key hkey.2 hkey.1
      rw [borrowReturn_cons cap b rest hlt] at hfm
      have ih2 := ih (rest ++ [b]) (by simp at hcap ⊢; omega) (by simp; omega)
        (fun k hkm => hres k (List.mem_cons_of_mem _ hkm))
      simp only [Backends, hfm, ih2, List.length_cons, List.take_succ_cons, List.drop_succ_cons,
        List.take_append_of_le_length hks, List.drop_append_of_le_length hks, List.append_assoc,
        List.singleton_append]

/-! ## `ServeHTTP`: routing key and dispatch -/

theorem addForwardedFor_Host (split : String → Option (String × String)) (rh : RequestHandler)
    (r : Request) : (addForwardedFor split rh r).Host = r.Host := by
  unfold addForwardedFor
  split
  · split <;> rfl
  · rfl

theorem addForwardedFor_URLPath (split : String → Option (String × String)) (rh : RequestHandler)
    (r : Request) : (addForwardedFor split rh r).URLPath = r.URLPath := by
  unfold addForwardedFor
  split
  · split <;> rfl
  · rfl

theorem index_assign_ne (m : GoMap) (key k : String) (v : List String) (hk : key ≠ k) :
    GoMap.index (GoMap.assign m key v) k = GoMap.index m k := by
  induction m with
  | nil => simp [GoMap.assign, GoMap.index, hk]
  | cons kv m ih =>
    obtain ⟨k1, v1⟩ := kv
    by_cases h1 : k1 = key
    · subst h1
      simp [GoMap.assign, GoMap.index, hk]
    · by_cases h2 : k1 = k
      · subst h2
        simp [GoMap.assign, GoMap.index, h1]
      · simp [GoMap.assign, GoMap.index, h1, h2, ih]

theorem addForwardedFor_index (split : String → Option (String × String)) (rh : RequestHandler)
    (r : Request) (k : String) (hk : "X-Forwarded-For" ≠ k) :
    GoMap.index (addForwardedFor split rh r).Header k = GoMap.index r.Header k := by
  unfold addForwardedFor
  split
  · split
    · exact index_assign_ne _ _ _ _ hk
    · rfl
  · rfl

theorem ServeHTTP_no_port (split : String → Option (String × String)) (lower : String → String)
    (rh : RequestHandler) (r : Request) (h : split r.Host = none) :
    ServeHTTP split lower rh r = some (NotFound, rh) := by
  simp only [ServeHTTP, addForwardedFor_Host, h]

theorem ServeHTTP_empty_backend (split : String → Option (String × String))
    (lower : String → String) (rh : RequestHandler) (r : Request) (host port : String)
    (pb : List Entry) (h : split r.Host = some (host, port))
    (hb : Backend rh.PathBackends (host ++ r.URLPath) = some ("", pb)) :
    ServeHTTP split lower rh r = some (NotFound, ⟨rh.Frontend, pb⟩) := by
  simp only [ServeHTTP, addForwardedFor_Host, addForwardedFor_URLPath, h, hb, if_true]

/-- The request as `ServeHTTP` hands it on once a backend is chosen. -/
theorem ServeHTTP_backend (split : String → Option (String × String))
    (lower : String → String) (rh : RequestHandler) (r : Request) (host port backend : String)
    (pb : List Entry) (h : split r.Host = some (host, port))
    (hb : Backend rh.PathBackends (host ++ r.URLPath) = some (backend, pb))
    (hne : backend ≠ "") :
    ∃ out, out.URLHost = backend
      ∧ ServeHTTP split lower rh r
          = some (if isWebsocket lower out.Header then Served.tunnel out else Served.roundTrip out,
              ⟨rh.Frontend, pb⟩)
      ∧ (∀ k, "X-Forwarded-For" ≠ k → GoMap.index out.Header k = GoMap.index r.Header k) := by
  refine ⟨{ addForwardedFor split rh { r with RequestURI := "", URLScheme := "http" } with
      URLHost := backend }, rfl, ?_, ?_⟩
  · simp only [ServeHTTP, addForwardedFor_Host, addForwardedFor_URLPath, h, hb, hne, if_false]
    split <;> rfl
  · intro k hk
    exact addForwardedFor_index split rh _ k hk

theorem ServeHTTP_routed (split : String → Option (String × String))
    (lower : String → String) (rh : RequestHandler) (r : Request) (host port backend : String)
    (pb : List Entry) (h : split r.Host = some (host, port))
    (hb : Backend rh.PathBackends (host ++ r.URLPath) = some (backend, pb))
    (hne : backend ≠ "") :
    ∃ s, ServeHTTP split lower rh r = some (s, ⟨rh.Frontend, pb⟩)
      ∧ s.backend = some backend := by
  obtain ⟨out, h1, h2, _⟩ := ServeHTTP_backend split lower rh r host port backend pb h hb hne
  refine ⟨_, h2, ?_⟩
  split
  · simpa [Served.backend] using h1
  · simpa [Served.backend] using h1

theorem isWebsocket_iff (lower : String → String) (header : GoMap) :
    isWebsocket lower header = true
      ↔ 0 < (GoMap.index header "Connection").length
        ∧ 0 < (GoMap.index header "Upgrade").length
        ∧ ∃ v, (GoMap.index header "Upgrade").head? = some v ∧ lower v = "websocket" := by
  unfold isWebsocket
  cases hu : GoMap.index header "Upgrade" with
  | nil => simp
  | cons v rest =>
    by_cases hc : 0 < (GoMap.index header "Connection").length
    · simp [hc]
    · simp [hc]

/-! ## One pool under interleaved borrow and return steps -/

theorem recv_some (c : Chan) (b : String) (c2 : Chan) (h : c.recv = some (b, c2)) :
    ∃ rest, c.buf = b :: rest ∧ c2 = ⟨c.cap, rest⟩ := by
  obtain ⟨cap, buf⟩ := c
  cases buf with
  | nil => simp [Chan.recv] at h
  | cons x rest =>
    simp only [Chan.recv, Option.some.injEq, Prod.mk.injEq] at h
    exact ⟨rest, by rw [h.1], h.2.symm⟩

theorem send_some (c : Chan) (b : String) (c2 : Chan) (h : c.send b = some c2) :
    c.buf.length < c.cap ∧ c2 = ⟨c.cap, c.buf ++ [b]⟩ := by
  unfold Chan.send at h
  by_cases hl : c.buf.length < c.cap
  · simp only [hl, if_true, Option.some.injEq] at h
    exact ⟨hl, h.symm⟩
  · simp [hl] at h

theorem step_borrow_some (s s1 : PoolState) (g : Nat) (h : s.step (PoolOp.borrow g) = some s1) :
    heldBy s.held g = none ∧ ∃ b rest, s.pool.buf = b :: rest
      ∧ s1 = ⟨⟨s.pool.cap, rest⟩, s.held ++ [(g, b)], s.borrowed ++ [b], s.returned⟩ := by
  simp only [PoolState.step] at h
  cases hh : heldBy s.held g with
  | some x => simp [hh] at h
  | none =>
    simp only [hh] at h
    cases hr : s.pool.recv with
    | none => simp [hr] at h
    | some r =>
      obtain ⟨b, c⟩ := r
      simp only [hr, Option.some.injEq] at h
      obtain ⟨rest, h1, h2⟩ := recv_some s.pool b c hr
      exact ⟨rfl, b, rest, h1, by rw [← h, h2]⟩

theorem step_giveBack_some (s s1 : PoolState) (g : Nat)
    (h : s.step (PoolOp.giveBack g) = some s1) :
    ∃ b, heldBy s.held g = some b ∧ s.pool.buf.length < s.pool.cap
      ∧ s1 = ⟨⟨s.pool.cap, s.pool.buf ++ [b]⟩, s.held.filter (fun x => x.1 ≠ g), s.borrowed,
          s.returned ++ [b]⟩ := by
  simp only [PoolState.step] at h
  cases hh : heldBy s.held g with
  | none => simp [hh] at h
  | some b =>
    simp only [hh] at h
    cases hs : s.pool.send b with
    | none => simp [hs] at h
    | some c =>
      simp only [hs, Option.some.injEq] at h
      obtain ⟨h1, h2⟩ := send_some s.pool b c hs
      exact ⟨b, rfl, h1, by rw [← h, h2]⟩

theorem PoolInv_init (backends : List String) : PoolInv backends (PoolState.init backends) := by
  refine ⟨by simp [PoolState.init], rfl, ?_⟩
  intro h
  simp [PoolState.init, h]

theorem PoolInv_step (backends : List String) (s s1 : PoolState) (op : PoolOp)
    (hinv : PoolInv backends s) (h : s.step op = some s1) : PoolInv backends s1 := by
  obtain ⟨h1, h2, h3⟩ := hinv
  cases op with
  | borrow g =>
    obtain ⟨_, b, rest, hb, hs1⟩ := step_borrow_some s s1 g h
    subst hs1
    refine ⟨?_, h2, ?_⟩
    · simp only [List.append_assoc, List.singleton_append]
      rw [← hb]
      exact h1
    · intro he
      have := (h3 he).2
      rw [hb] at this
      exact absurd this (List.cons_ne_nil _ _)
  | giveBack g =>
    obtain ⟨b, _, hlt, hs1⟩ := step_giveBack_some s s1 g h
    subst hs1
    refine ⟨?_, h2, ?_⟩
    · simp only [← List.append_assoc]
      rw [h1]
    · intro he
      rw [h2, he] at hlt
      exact absurd hlt (Nat.not_lt_zero _)

theorem PoolInv_run (backends : List String) (ops : List PoolOp) (s s1 : PoolState)
    (hinv : PoolInv backends s) (h : s.run ops = some s1) : PoolInv backends s1 := by
  induction ops generalizing s with
  | nil =>
    simp only [PoolState.run, Option.some.injEq] at h
    rw [← h]
    exact hinv
  | cons op ops ih =>
    simp only [PoolState.run] at h
    cases hs : s.step op with
    | none => simp [hs] at h
    | some s2 =>
      simp only [hs] at h
      exact ih s2 (PoolInv_step backends s s2 op hinv hs) h

/-- When selections do not overlap, what has been given back is what has been borrowed, up to
the one address of a selection still in progress. -/
theorem run_nonOverlapping : ∀ (ops : List PoolOp) (s s1 : PoolState),
    nonOverlapping ops = true → s.held = [] → s.run ops = some s1 →
    ∃ xs, s1.returned = s.returned ++ xs
      ∧ (s1.borrowed = s.borrowed ++ xs ∨ ∃ b, s1.borrowed = s.borrowed ++ xs ++ [b])
  | [], s, s1, _, _, hrun => by
    simp only [PoolState.run, Option.some.injEq] at hrun
    subst hrun
    exact ⟨[], by simp, Or.inl (by simp)⟩
  | [PoolOp.borrow g], s, s1, _, _, hrun => by
    simp only [PoolState.run] at hrun
    cases hs : s.step (PoolOp.borrow g) with
    | none => simp [hs] at hrun
    | some s2 =>
      simp only [hs, Option.some.injEq] at hrun
      subst hrun
      obtain ⟨_, b, rest, _, hs2⟩ := step_borrow_some s s2 g hs
      subst hs2
      exact ⟨[], by simp, Or.inr ⟨b, by simp⟩⟩
  | PoolOp.borrow g :: PoolOp.giveBack g1 :: rest, s, s1, hno, hheld, hrun => by
    simp only [nonOverlapping, Bool.and_eq_true, decide_eq_true_eq] at hno
    obtain ⟨hg, hno2⟩ := hno
    subst hg
    simp only [PoolState.run] at hrun
    cases hs : s.step (PoolOp.borrow g) with
    | none => simp [hs] at hrun
    | some s2 =>
      simp only [hs] at hrun
      obtain ⟨_, b, rest2, _, hs2⟩ := step_borrow_some s s2 g hs
      cases hs3 : s2.step (PoolOp.giveBack g) with
      | none => simp [hs3] at hrun
      | some s3 =>
        simp only [hs3] at hrun
        obtain ⟨b2, hb2, _, hs3eq⟩ := step_giveBack_some s2 s3 g hs3
        have hb : b2 = b := by
          rw [hs2, hheld] at hb2
          simpa [heldBy] using hb2.symm
        have hheld3 : s3.held = [] := by
          rw [hs3eq, hs2, hheld]
          simp
        obtain ⟨xs, hx1, hx2⟩ := run_nonOverlapping rest s3 s1 hno2 hheld3 hrun
        have hr3 : s3.returned = s.returned ++ [b] := by rw [hs3eq, hs2, hb]
        have hbo3 : s3.borrowed = s.borrowed ++ [b] := by rw [hs3eq, hs2]
        refine ⟨b :: xs, ?_, ?_⟩
        · rw [hx1, hr3]
          simp
        · rcases hx2 with hx2 | ⟨b3, hx2⟩
          · exact Or.inl (by rw [hx2, hbo3]; simp)
          · exact Or.inr ⟨b3, by rw [hx2, hbo3]; simp⟩
  | PoolOp.giveBack _ :: _, _, _, hno, _, _ => by simp [nonOverlapping] at hno
  | PoolOp.borrow _ :: PoolOp.borrow _ :: _, _, _, hno, _, _ => by simp [nonOverlapping] at hno

/-- A history in which addresses are borrowed in the order configured-then-returned, and
returned in the order borrowed, is the configured list repeated cyclically. -/
theorem cyclic_of_fifo (backends borrowed returned buf : List String)
    (h1 : borrowed ++ buf = backends ++ returned) (h2 : returned <+: borrowed)
    (h3 : backends = [] → borrowed = []) : CyclicRepeat backends borrowed := by
  intro i
  induction i using Nat.strong_induction_on with
  | _ i ih =>
    intro hi
    have hN : 0 < backends.length := by
      rcases Nat.eq_zero_or_pos backends.length with h0 | h0
      · have := h3 (List.length_eq_zero.mp h0)
        rw [this] at hi
        exact absurd hi (Nat.not_lt_zero _)
      · exact h0
    have hlen : borrowed.length + buf.length = backends.length + returned.length := by
      have := congrArg List.length h1
      simpa using this
    have hget : (borrowed ++ buf)[i]? = (backends ++ returned)[i]? := by rw [h1]
    rw [List.getElem?_append_left hi] at hget
    rw [hget]
    by_cases hlt : i < backends.length
    · rw [List.getElem?_append_left hlt, Nat.mod_eq_of_lt hlt]
    · have hge : backends.length ≤ i := Nat.le_of_not_lt hlt
      rw [List.getElem?_append_right hge]
      have hsub : i - backends.length < returned.length := by omega
      obtain ⟨tl, htl⟩ := h2
      have hb : borrowed[i - backends.length]? = returned[i - backends.length]? := by
        rw [← htl, List.getElem?_append_left hsub]
      rw [← hb, ih (i - backends.length) (by omega) (by omega), ← Nat.mod_eq_sub_mod hge]

/-! ## Routing priority -/

/-- C1: `Backend` selects from the first entry, in table order, whose prefix is a string-prefix
of the routing key. Whatever entries follow it (`post`), whatever their prefixes and lengths,
the call is exactly a borrow-and-return on the channel of that first entry: its head is the
backend returned, and no other entry is touched. -/
theorem Backend_first_match_wins (pre post : List Entry) (p : String) (c : Chan) (key : String)
    (hpre : ∀ e ∈ pre, ∀ q, e.1 = Iface.str q → ¬ q.data <+: key.data)
    (hp : p.data <+: key.data) :
    Backend (pre ++ (Iface.str p, Iface.chan c) :: post) key
        = (borrowReturn c).map (fun r => (r.1, pre ++ (Iface.str p, Iface.chan r.2) :: post))
      ∧ ∀ b rest, c.buf = b :: rest → rest.length < c.cap →
          Backend (pre ++ (Iface.str p, Iface.chan c) :: post) key
            = some (b, pre ++ (Iface.str p, Iface.chan ⟨c.cap, rest ++ [b]⟩) :: post) := by
  have hpre2 : ∀ e ∈ pre, ∀ q, e.1 = Iface.str q → HasPrefix key q = false := by
    intro e he q hq
    rw [HasPrefix_eq_false_iff]
    exact hpre e he q hq
  have hfm := Backend_first_match pre post p c key hpre2 ((HasPrefix_iff key p).mpr hp)
  constructor
  · rw [hfm]
    cases borrowReturn c with
    | none => rfl
    | some r => rfl
  · intro b rest hbuf hlt
    obtain ⟨cap, buf⟩ := c
    simp only at hbuf hlt
    subst hbuf
    rw [hfm, borrowReturn_cons cap b rest hlt]

/-- C1 on the test configuration: the key `localhost/v1/ping` is served from the pool of
`localhost`, listed first, and not from the pool of the longer prefix `localhost/v1/ping`. -/
theorem Backend_first_match_wins_witness :
    Backend testTable "localhost/v1/ping"
      = some ("localhost:9010",
          [(Iface.str "localhost", Iface.chan ⟨2, ["localhost:9009", "localhost:9010"]⟩),
           (Iface.str "localhost/v1/ping", Iface.chan ⟨1, ["localhost:9000"]⟩)]) :=
  (Backend_first_match_wins [] [(Iface.str "localhost/v1/ping", Iface.chan ⟨1, ["localhost:9000"]⟩)]
    "localhost" ⟨2, ["localhost:9010", "localhost:9009"]⟩ "localhost/v1/ping"
    (fun e he => absurd he (List.not_mem_nil e)) (by decide)).2
    "localhost:9010" ["localhost:9009"] rfl (by decide)

/-! ## Round robin -/

/-- C2: round-robin completeness. Take the table built by `Frontend.Run`, any state `t` reached
from it by earlier sequential `Backend` calls, and the `i`-th configured pair, with `N` backends.
Then `N` consecutive calls whose routing keys all resolve to that entry all complete, and the
backends they return are the configured backends, each exactly once (a rotation of the
configured list); the table is then back at `t`. -/
theorem round_robin_completeness (f : Frontend) (paths : List GoMap) (rh : RequestHandler)
    (hrun : f.Run paths = some rh)
    (earlier outs0 : List String) (t : List Entry)
    (hreach : Backends rh.PathBackends earlier = some (outs0, t))
    (i : Nat) (kv : String × List String) (hi : paths.flatten[i]? = some kv)
    (keys : List String) (hlen : keys.length = kv.2.length)
    (hres : ∀ key ∈ keys, ResolvesTo paths.flatten i key) :
    ∃ outs t2, Backends t keys = some (outs, t2)
      ∧ outs.Perm kv.2 ∧ (∃ k, outs = kv.2.rotate k) ∧ t2 = t := by
  rw [Frontend_Run_eq, Option.some.injEq] at hrun
  subst hrun
  have hrot : Rotated paths.flatten t :=
    Rotated_Backends _ earlier _ outs0 t (Rotated_entryOf _) hreach
  obtain ⟨pre, post, k, ht, hpre⟩ := Rotated_split _ t i kv hrot hi
  have hres2 : ∀ key ∈ keys, HasPrefix key kv.1 = true
      ∧ ∀ e ∈ pre, ∀ q, e.1 = Iface.str q → HasPrefix key q = false := by
    intro key hkey
    have hr := hres key hkey
    refine ⟨?_, ResolvesTo_pre _ i key pre hr hpre⟩
    obtain ⟨⟨kv1, hkv1, hp⟩, _⟩ := hr
    rw [hi, Option.some.injEq] at hkv1
    rw [HasPrefix_iff, hkv1]
    exact hp
  have hbl : (kv.2.rotate k).length = kv.2.length := List.length_rotate _ _
  have hseq := Backends_same_entry pre post kv.1 kv.2.length keys (kv.2.rotate k) hbl
    (by rw [hbl, hlen]) hres2
  have hkl : keys.length = (kv.2.rotate k).length := by rw [hbl, hlen]
  rw [hkl, List.take_length, List.drop_length, List.nil_append, ← ht] at hseq
  exact ⟨kv.2.rotate k, t, hseq, List.rotate_perm _ _, ⟨k, rfl⟩, rfl⟩

/-- C2 on the test configuration: after one earlier selection on `localhost`, two more calls
resolving to `localhost` return its two backends once each. -/
theorem round_robin_completeness_witness :
    ∃ outs t2,
      Backends [(Iface.str "localhost", Iface.chan ⟨2, ["localhost:9009", "localhost:9010"]⟩),
          (Iface.str "localhost/v1/ping", Iface.chan ⟨1, ["localhost:9000"]⟩)]
        ["localhost/a", "localhost/v1/ping"] = some (outs, t2)
      ∧ outs.Perm ["localhost:9010", "localhost:9009"]
      ∧ (∃ k, outs = ["localhost:9010", "localhost:9009"].rotate k)
      ∧ t2 = [(Iface.str "localhost", Iface.chan ⟨2, ["localhost:9009", "localhost:9010"]⟩),
          (Iface.str "localhost/v1/ping", Iface.chan ⟨1, ["localhost:9000"]⟩)] :=
  round_robin_completeness testServer1 testPaths ⟨testServer1, testTable⟩ (by decide)
    ["localhost/x"] ["localhost:9010"] _ (by decide)
    0 ("localhost", ["localhost:9010", "localhost:9009"]) rfl
    ["localhost/a", "localhost/v1/ping"] rfl
    (by
      intro key hkey
      refine ⟨⟨("localhost", ["localhost:9010", "localhost:9009"]), rfl, ?_⟩,
        fun j hj => absurd hj (Nat.not_lt_zero j)⟩
      simp only [List.mem_cons, List.mem_singleton, List.not_mem_nil, or_false] at hkey
      rcases hkey with rfl | rfl <;> decide)

/-! ## Conservation -/

theorem Rotated_entries (cfg : GoMap) (t : List Entry) (hr : Rotated cfg t) :
    ∀ e ∈ t, ∃ p c, e = (Iface.str p, Iface.chan c) := by
  unfold Rotated at hr
  induction hr with
  | nil => simp
  | @cons kv e0 cfg1 t1 hR _ ih =>
    intro e he
    rcases List.mem_cons.mp he with he | he
    · obtain ⟨k, hk⟩ := hR
      exact ⟨kv.1, _, by rw [he, hk]⟩
    · exact ih e he

/-- On a table whose entries all hold a string and a channel, a completed call is of one of two
kinds. Either no prefix of the table is a prefix of the key, and then the empty string is
returned and the table is unchanged; or the call took the head of the channel of the first
entry whose prefix matches, returned it, and left it at the tail of that same channel. -/
theorem Backend_selects (t : List Entry) (key b : String) (t2 : List Entry)
    (hwt : ∀ e ∈ t, ∃ p c, e = (Iface.str p, Iface.chan c))
    (h : Backend t key = some (b, t2)) :
    ((∀ e ∈ t, ∀ p, e.1 = Iface.str p → HasPrefix key p = false) ∧ b = "" ∧ t2 = t)
      ∨ ∃ pre p c post rest, t = pre ++ (Iface.str p, Iface.chan c) :: post
        ∧ (∀ e ∈ pre, ∀ q, e.1 = Iface.str q → HasPrefix key q = false)
        ∧ HasPrefix key p = true
        ∧ t2 = pre ++ (Iface.str p, Iface.chan ⟨c.cap, rest ++ [b]⟩) :: post
        ∧ c.buf = b :: rest := by
  induction t generalizing t2 with
  | nil =>
    simp only [Backend, Option.some.injEq, Prod.mk.injEq] at h
    exact Or.inl ⟨by simp, h.1.symm, h.2.symm⟩
  | cons e t ih =>
    obtain ⟨q, c, he⟩ := hwt e (List.mem_cons_self _ _)
    subst he
    have hwt2 : ∀ e ∈ t, ∃ p c, e = (Iface.str p, Iface.chan c) :=
      fun e1 he1 => hwt e1 (List.mem_cons_of_mem _ he1)
    by_cases hq : HasPrefix key q = true
    · simp only [Backend, hq, if_true] at h
      cases hbr : borrowReturn c with
      | none => simp [hbr] at h
      | some r =>
        obtain ⟨b1, c2⟩ := r
        simp only [hbr, Option.some.injEq, Prod.mk.injEq] at h
        obtain ⟨hb, ht⟩ := h
        subst hb
        obtain ⟨rest, hr1, _, hr3⟩ := borrowReturn_some c b1 c2 hbr
        subst hr3
        exact Or.inr ⟨[], q, c, t, rest, rfl, by simp, hq, ht.symm, hr1⟩
    · have hqf : HasPrefix key q = false := by simpa using hq
      have h2 : nextEntry (Iface.str q, Iface.chan c) (Backend t key) = some (b, t2) := by
        simpa [Backend, hqf] using h
      obtain ⟨t3, h3, h4⟩ := nextEntry_some _ _ _ _ h2
      rcases ih t3 hwt2 h3 with ⟨hno, hb, ht⟩ | ⟨pre, p, c1, post, rest, h5, h6, h7, h8, h9⟩
      · refine Or.inl ⟨?_, hb, by rw [h4, ht]⟩
        intro e1 he1 p hp
        rcases List.mem_cons.mp he1 with he1 | he1
        · subst he1
          simp only [Iface.str.injEq] at hp
          rw [← hp]
          exact hqf
        · exact hno e1 he1 p hp
      · refine Or.inr ⟨(Iface.str q, Iface.chan c) :: pre, p, c1, post, rest, by rw [h5]; rfl,
          ?_, h7, by rw [h4, h8]; rfl, h9⟩
        intro e1 he1 p1 hp1
        rcases List.mem_cons.mp he1 with he1 | he1
        · subst he1
          simp only [Iface.str.injEq] at hp1
          rw [← hp1]
          exact hqf
        · exact h6 e1 he1 p1 hp1

/-- C5: pool conservation. In every state `t` reached from the table built by `Frontend.Run`
by sequential `Backend` calls on any keys, the table still lists the configured keys in order,
and every channel has the capacity and the number of addresses configured for its key, its
content being the configured backend list rotated. Moreover a further completed call is of one
of two kinds. Either no prefix of the table is a string-prefix of the key: then it returns the
empty string and leaves the table as it is. Or it selects: the backend returned is the head of
the channel of the first entry whose prefix matches, and after the call that same address is
back in that channel, at the tail, behind the addresses that were behind it, nothing removed,
every other entry untouched. -/
theorem pool_conservation (f : Frontend) (paths : List GoMap) (rh : RequestHandler)
    (hrun : f.Run paths = some rh)
    (keys outs : List String) (t : List Entry)
    (hcalls : Backends rh.PathBackends keys = some (outs, t)) :
    List.Forall₂
        (fun kv e => ∃ c, e = (Iface.str kv.1, Iface.chan c) ∧ c.cap = kv.2.length
          ∧ c.buf.length = kv.2.length ∧ ∃ k, c.buf = kv.2.rotate k)
        paths.flatten t
      ∧ ∀ key b t2, Backend t key = some (b, t2) →
          ((∀ e ∈ t, ∀ p, e.1 = Iface.str p → ¬ p.data <+: key.data) ∧ b = "" ∧ t2 = t)
          ∨ ∃ pre p c c2 post rest, t = pre ++ (Iface.str p, Iface.chan c) :: post
            ∧ (∀ e ∈ pre, ∀ q, e.1 = Iface.str q → ¬ q.data <+: key.data)
            ∧ p.data <+: key.data
            ∧ t2 = pre ++ (Iface.str p, Iface.chan c2) :: post
            ∧ c.buf = b :: rest ∧ c2 = ⟨c.cap, rest ++ [b]⟩
            ∧ c.buf.head? = some b ∧ c2.buf.getLast? = some b ∧ c2.buf.Perm c.buf := by
  rw [Frontend_Run_eq, Option.some.injEq] at hrun
  subst hrun
  have hrot : Rotated paths.flatten t :=
    Rotated_Backends _ keys _ outs t (Rotated_entryOf _) hcalls
  constructor
  · refine List.Forall₂.imp ?_ hrot
    rintro kv e ⟨k, rfl⟩
    exact ⟨_, rfl, rfl, List.length_rotate _ _, k, rfl⟩
  · intro key b t2 hb
    rcases Backend_selects t key b t2 (Rotated_entries _ t hrot) hb with
      ⟨hno, hbe, ht⟩ | ⟨pre, p, c, post, rest, h1, h2, h3, h4, h5⟩
    · refine Or.inl ⟨?_, hbe, ht⟩
      intro e he p hp
      exact (HasPrefix_eq_false_iff key p).mp (hno e he p hp)
    · refine Or.inr ⟨pre, p, c, ⟨c.cap, rest ++ [b]⟩, post, rest, h1, ?_,
        (HasPrefix_iff key p).mp h3, h4, h5, rfl, ?_, ?_, ?_⟩
      · intro e he q hq
        exact (HasPrefix_eq_false_iff key q).mp (h2 e he q hq)
      · rw [h5]
        rfl
      · simp
      · rw [h5]
        exact List.perm_append_singleton b rest

/-- C5 on the test configuration, in the state after one selection on `localhost`: the pools
hold the configured lists rotated, and the selection on `localhost/a` made in that state, which
returns `localhost:9009`, is of the second kind (the first kind would need `localhost` not to
be a prefix of `localhost/a`). -/
theorem pool_conservation_witness :
    List.Forall₂
        (fun kv e => ∃ c, e = (Iface.str kv.1, Iface.chan c) ∧ c.cap = kv.2.length
          ∧ c.buf.length = kv.2.length ∧ ∃ k, c.buf = kv.2.rotate k)
        testPaths.flatten
        [(Iface.str "localhost", Iface.chan ⟨2, ["localhost:9009", "localhost:9010"]⟩),
          (Iface.str "localhost/v1/ping", Iface.chan ⟨1, ["localhost:9000"]⟩)]
      ∧ ∃ pre p c c2 post rest,
          [(Iface.str "localhost", Iface.chan ⟨2, ["localhost:9009", "localhost:9010"]⟩),
            (Iface.str "localhost/v1/ping", Iface.chan ⟨1, ["localhost:9000"]⟩)]
            = pre ++ (Iface.str p, Iface.chan c) :: post
          ∧ (∀ e ∈ pre, ∀ q, e.1 = Iface.str q → ¬ q.data <+: "localhost/a".data)
          ∧ p.data <+: "localhost/a".data
          ∧ testTable = pre ++ (Iface.str p, Iface.chan c2) :: post
          ∧ c.buf = "localhost:9009" :: rest ∧ c2 = ⟨c.cap, rest ++ ["localhost:9009"]⟩
          ∧ c.buf.head? = some "localhost:9009" ∧ c2.buf.getLast? = some "localhost:9009"
          ∧ c2.buf.Perm c.buf :=
  ⟨(pool_conservation testServer1 testPaths ⟨testServer1, testTable⟩ (by decide)
      ["localhost/x"] ["localhost:9010"] _ (by decide)).1,
    ((pool_conservation testServer1 testPaths ⟨testServer1, testTable⟩ (by decide)
      ["localhost/x"] ["localhost:9010"]
      [(Iface.str "localhost", Iface.chan ⟨2, ["localhost:9009", "localhost:9010"]⟩),
        (Iface.str "localhost/v1/ping", Iface.chan ⟨1, ["localhost:9000"]⟩)] (by decide)).2
      "localhost/a" "localhost:9009" testTable (by decide)).resolve_left
      (fun h => h.1 (Iface.str "localhost", Iface.chan ⟨2, ["localhost:9009", "localhost:9010"]⟩)
        (List.mem_cons_self _ _) "localhost" rfl (by decide))⟩

/-! ## Route-table construction -/

theorem index_of_not_mem (m : GoMap) (h : String) (hk : h ∉ GoMap.keys m) :
    GoMap.index m h = [] := by
  induction m with
  | nil => rfl
  | cons kv m ih =>
    obtain ⟨k, v⟩ := kv
    simp only [GoMap.keys, List.map_cons, List.mem_cons, not_or] at hk
    have hk1 : ¬ k = h := fun e => hk.1 e.symm
    simp only [GoMap.index, hk1, if_false]
    exact ih hk.2

theorem value_unique (m : GoMap) (h : String) (v1 v2 : List String)
    (hnd : (GoMap.keys m).Nodup) (h1 : (h, v1) ∈ m) (h2 : (h, v2) ∈ m) : v1 = v2 := by
  induction m with
  | nil => simp at h1
  | cons kv m ih =>
    simp only [GoMap.keys, List.map_cons, List.nodup_cons] at hnd
    have hkey : ∀ v, (h, v) ∈ m → h ∈ List.map Prod.fst m :=
      fun v hv => List.mem_map.mpr ⟨(h, v), hv, rfl⟩
    rcases List.mem_cons.mp h1 with e1 | e1
    · rcases List.mem_cons.mp h2 with e2 | e2
      · rw [← e2] at e1
        exact (Prod.mk.inj e1).2
      · rw [← e1] at hnd
        exact absurd (hkey v2 e2) hnd.1
    · rcases List.mem_cons.mp h2 with e2 | e2
      · rw [← e2] at hnd
        exact absurd (hkey v1 e1) hnd.1
      · exact ih hnd.2 e1 e2

/-- The value stored under a key does not depend on the order in which the pairs of a map
(distinct keys) are enumerated. -/
theorem index_perm (m it : GoMap) (h : String) (hp : it.Perm m) (hnd : (GoMap.keys m).Nodup) :
    GoMap.index it h = GoMap.index m h := by
  have hkeys : (GoMap.keys it).Perm (GoMap.keys m) := hp.map Prod.fst
  by_cases hk : h ∈ GoMap.keys m
  · have hk2 : h ∈ GoMap.keys it := hkeys.mem_iff.mpr hk
    exact value_unique m h _ _ hnd (hp.mem_iff.mp (index_mem it h hk2)) (index_mem m h hk)
  · have hk2 : h ∉ GoMap.keys it := fun e => hk (hkeys.mem_iff.mp e)
    rw [index_of_not_mem m h hk, index_of_not_mem it h hk2]

theorem collectPaths_perm (m it : GoMap) (hs : List String) (hp : it.Perm m)
    (hnd : (GoMap.keys m).Nodup) : collectPaths it [] hs = collectPaths m [] hs := by
  have hkeys : (GoMap.keys it).Perm (GoMap.keys m) := hp.map Prod.fst
  rw [collectPaths_eq, collectPaths_eq]
  have hfil : hs.filter (fun h => decide (h ∈ GoMap.keys it))
      = hs.filter (fun h => decide (h ∈ GoMap.keys m)) := by
    apply List.filter_congr
    intro h _
    simp only [hkeys.mem_iff]
  rw [hfil]
  simp only [List.nil_append]
  apply List.map_congr_left
  intro h _
  rw [index_perm m it h hp hnd]

theorem flatten_map_singleton (l : List String) (g : String → String × List String) :
    (l.map (fun a => [g a])).flatten = l.map g := by
  induction l with
  | nil => rfl
  | cons a l ih => simp [ih]

theorem launch_paths (c : Config) (f : Frontend) (paths : List GoMap)
    (h : (f, paths) ∈ Between.Run c) :
    f ∈ c.Frontends ∧ f.Active = true ∧ paths = collectPaths c.Paths [] f.Paths := by
  simp only [Between.Run, List.mem_map, List.mem_filter, Prod.mk.injEq] at h
  obtain ⟨g, ⟨hg1, hg2⟩, hg3, hg4⟩ := h
  subst hg3
  exact ⟨hg1, hg2, hg4.symm⟩

theorem launch_pairs_mem (c : Config) (f : Frontend) (paths : List GoMap)
    (h : (f, paths) ∈ Between.Run c) : ∀ kv ∈ paths.flatten, kv ∈ c.Paths := by
  obtain ⟨_, _, hp⟩ := launch_paths c f paths h
  intro kv hkv
  rw [hp, collectPaths_eq, List.nil_append, List.mem_flatten] at hkv
  obtain ⟨l, hl, hkvl⟩ := hkv
  obtain ⟨k, hk, rfl⟩ := List.mem_map.mp hl
  rw [List.mem_singleton] at hkvl
  rw [hkvl]
  have hk2 := (List.mem_filter.mp hk).2
  exact index_mem c.Paths k (by simpa using hk2)

/-- C4: route-table construction. For every configuration and every active frontend `f`,
`Between.Run` launches `f.Run` on exactly one `paths` argument, and `Frontend.Run` completes on
it with a table whose prefixes are the declared `f.Paths` with the keys absent from the global
map removed, in declared order, each with a channel of capacity `len(backends)` pre-loaded with
the backend list stored under that key. The result does not depend on the order in which the
pairs of the global map (distinct keys) are enumerated. -/
theorem route_table_construction (c : Config) (f : Frontend) (hf : f ∈ c.Frontends)
    (hact : f.Active = true) :
    ∃ paths, (f, paths) ∈ Between.Run c
      ∧ (∀ p, (f, p) ∈ Between.Run c → p = paths)
      ∧ f.Run paths = some ⟨f,
          (f.Paths.filter (fun h => decide (h ∈ GoMap.keys c.Paths))).map
            (fun h => (Iface.str h,
              Iface.chan ⟨(GoMap.index c.Paths h).length, GoMap.index c.Paths h⟩))⟩
      ∧ (∀ h ∈ GoMap.keys c.Paths, (h, GoMap.index c.Paths h) ∈ c.Paths)
      ∧ ∀ it : GoMap, it.Perm c.Paths → (GoMap.keys c.Paths).Nodup →
          Between.Run ⟨c.Frontends, it⟩ = Between.Run c := by
  refine ⟨collectPaths c.Paths [] f.Paths, ?_, ?_, ?_, ?_, ?_⟩
  · simp only [Between.Run, List.mem_map, List.mem_filter]
    exact ⟨f, ⟨hf, hact⟩, rfl⟩
  · intro p hp
    exact (launch_paths c f p hp).2.2
  · rw [Frontend_Run_eq, collectPaths_eq, List.nil_append, flatten_map_singleton, List.map_map]
    rfl
  · intro h hh
    exact index_mem c.Paths h hh
  · intro it hp hnd
    simp only [Between.Run]
    apply List.map_congr_left
    intro g _
    rw [collectPaths_perm c.Paths it g.Paths hp hnd]

/-- C4 on the test configuration: `localhost/google` and `127.0.0.1` are declared by `server1`
but absent from the map, and the table built is `localhost`, `localhost/v1/ping`. -/
theorem route_table_construction_witness :
    ∃ paths, (testServer1, paths) ∈ Between.Run testConfig
      ∧ testServer1.Run paths = some ⟨testServer1, testTable⟩ := by
  obtain ⟨paths, h1, _, h3, _⟩ :=
    route_table_construction testConfig testServer1 (by decide) (by decide)
  exact ⟨paths, h1, by rw [h3]; decide⟩

/-! ## Completion of a selection -/

/-- C8, refuted as stated: with a path key configured with an empty backend list, the table
built by `Between.Run` and `Frontend.Run` has an entry matching the key `localhost`, and the
`Backend` call on that key never completes (the receive finds the channel empty and no one
will ever send). -/
theorem Backend_blocks_on_empty_pool :
    ∃ f paths rh, (f, paths) ∈ Between.Run emptyPoolConfig ∧ f.Run paths = some rh
      ∧ (∃ e ∈ rh.PathBackends, ∃ p, e.1 = Iface.str p ∧ p.data <+: "localhost".data)
      ∧ Backend rh.PathBackends "localhost" = none :=
  ⟨⟨"server1", ":9010", ["localhost"], false, false, "", "", true⟩, [[("localhost", [])]],
    ⟨⟨"server1", ":9010", ["localhost"], false, false, "", "", true⟩,
      [(Iface.str "localhost", Iface.chan ⟨0, []⟩)]⟩,
    by decide, by decide,
    ⟨(Iface.str "localhost", Iface.chan ⟨0, []⟩), List.mem_cons_self _ _, "localhost", rfl,
      List.prefix_refl _⟩,
    by decide⟩

/-- C8, amended: take a table built by `Between.Run` and `Frontend.Run` from any configuration,
any state reached from it by sequential `Backend` calls, and a routing key whose first matching
entry was configured with at least one backend. Then the `Backend` call on that key completes
(the receive finds an address, the send finds room) and returns one of the backends configured
for that entry. -/
theorem Backend_completes (c : Config) (f : Frontend) (paths : List GoMap)
    (hlaunch : (f, paths) ∈ Between.Run c)
    (rh : RequestHandler) (hrun : f.Run paths = some rh)
    (keys outs : List String) (t : List Entry)
    (hreach : Backends rh.PathBackends keys = some (outs, t))
    (key : String) (i : Nat) (kv : String × List String)
    (hi : paths.flatten[i]? = some kv) (hres : ResolvesTo paths.flatten i key)
    (hN : kv.2 ≠ []) :
    ∃ b t2, Backend t key = some (b, t2) ∧ b ∈ kv.2 ∧ kv ∈ c.Paths := by
  rw [Frontend_Run_eq, Option.some.injEq] at hrun
  subst hrun
  have hrot : Rotated paths.flatten t :=
    Rotated_Backends _ keys _ outs t (Rotated_entryOf _) hreach
  obtain ⟨pre, post, k, ht, hpre⟩ := Rotated_split _ t i kv hrot hi
  have hkvmem : kv ∈ c.Paths := launch_pairs_mem c f paths hlaunch kv (List.getElem?_mem hi)
  have hpkv : kv.1.data <+: key.data := by
    obtain ⟨⟨kv1, hkv1, hp⟩, _⟩ := hres
    rw [hi, Option.some.injEq] at hkv1
    rw [hkv1]
    exact hp
  have hfm := Backend_first_match pre post kv.1 ⟨kv.2.length, kv.2.rotate k⟩ key
    (ResolvesTo_pre _ i key pre hres hpre) ((HasPrefix_iff key kv.1).mpr hpkv)
  have hlen : (kv.2.rotate k).length = kv.2.length := List.length_rotate _ _
  cases hbuf : kv.2.rotate k with
  | nil =>
    rw [hbuf, List.length_nil] at hlen
    exact absurd (List.length_eq_zero.mp hlen.symm) hN
  | cons b rest =>
    rw [hbuf, List.length_cons] at hlen
    rw [hbuf, borrowReturn_cons kv.2.length b rest (by omega), ← hbuf] at hfm
    refine ⟨b, _, by rw [ht]; exact hfm, ?_, hkvmem⟩
    have hb : b ∈ kv.2.rotate k := by rw [hbuf]; exact List.mem_cons_self _ _
    exact (List.rotate_perm kv.2 k).mem_iff.mp hb

/-- C8 amended, on the test configuration: the call on `localhost/v1/ping` completes with a
backend of `localhost`, its first matching entry. -/
theorem Backend_completes_witness :
    ∃ b t2, Backend testTable "localhost/v1/ping" = some (b, t2)
      ∧ b ∈ ["localhost:9010", "localhost:9009"]
      ∧ ("localhost", ["localhost:9010", "localhost:9009"]) ∈ testConfig.Paths :=
  Backend_completes testConfig testServer1 testPaths (by decide)
    ⟨testServer1, testTable⟩ (by decide) [] [] testTable rfl "localhost/v1/ping"
    0 ("localhost", ["localhost:9010", "localhost:9009"]) rfl
    ⟨⟨("localhost", ["localhost:9010", "localhost:9009"]), rfl, by decide⟩,
      fun j hj => absurd hj (Nat.not_lt_zero j)⟩
    (by decide)

/-! ## Requests answered with 404 -/

/-- C6: when `net.SplitHostPort` fails on the request's `Host` (no port), `ServeHTTP` replies
404 whatever the URL path and the route table are; the handler is left as it was (no pool is
advanced) and the request is handed to no backend. -/
theorem no_port_not_found (split : String → Option (String × String))
    (lower : String → String) (rh : RequestHandler) (r : Request)
    (h : split r.Host = none) :
    ServeHTTP split lower rh r = some (Served.reply 404, rh) :=
  ServeHTTP_no_port split lower rh r h

/-- C6 on the test table: a request to `localhost` (no port) with path `/v1/ping`. -/
theorem no_port_not_found_witness :
    ServeHTTP netSplitHostPort asciiToLower ⟨testServer1, testTable⟩
        (requestTo emptyRequest "localhost" "/v1/ping")
      = some (Served.reply 404, ⟨testServer1, testTable⟩) :=
  no_port_not_found netSplitHostPort asciiToLower ⟨testServer1, testTable⟩
    (requestTo emptyRequest "localhost" "/v1/ping") (by decide)

/-- C7: when the request's `Host` splits into host and port and no prefix of the route table
is a string-prefix of the routing key `host ++ path`, `Backend` returns the empty string
leaving the table as it was, and `ServeHTTP` replies 404. An empty table is a special case. -/
theorem no_match_not_found (split : String → Option (String × String))
    (lower : String → String) (rh : RequestHandler) (r : Request) (host port : String)
    (hsplit : split r.Host = some (host, port))
    (hno : ∀ e ∈ rh.PathBackends, ∀ p, e.1 = Iface.str p → ¬ p.data <+: (host ++ r.URLPath).data) :
    Backend rh.PathBackends (host ++ r.URLPath) = some ("", rh.PathBackends)
      ∧ ServeHTTP split lower rh r = some (Served.reply 404, rh) := by
  have hb : Backend rh.PathBackends (host ++ r.URLPath) = some ("", rh.PathBackends) := by
    apply Backend_no_match
    intro e he p hp
    rw [HasPrefix_eq_false_iff]
    exact hno e he p hp
  exact ⟨hb, ServeHTTP_empty_backend split lower rh r host port _ hsplit hb⟩

/-- C7 on an empty route table and on the test table (key `127.0.0.1/v1/ping`). -/
theorem no_match_not_found_witness :
    (Backend [] ("localhost" ++ "/google") = some ("", [])
      ∧ ServeHTTP netSplitHostPort asciiToLower ⟨testServer1, []⟩
          (requestTo emptyRequest "localhost:9010" "/google")
        = some (Served.reply 404, ⟨testServer1, []⟩))
    ∧ (Backend testTable ("127.0.0.1" ++ "/v1/ping") = some ("", testTable)
      ∧ ServeHTTP netSplitHostPort asciiToLower ⟨testServer1, testTable⟩
          (requestTo emptyRequest "127.0.0.1:9010" "/v1/ping")
        = some (Served.reply 404, ⟨testServer1, testTable⟩)) :=
  ⟨no_match_not_found netSplitHostPort asciiToLower ⟨testServer1, []⟩
      (requestTo emptyRequest "localhost:9010" "/google") "localhost" "9010" (by decide)
      (fun e he => absurd he (List.not_mem_nil e)),
    no_match_not_found netSplitHostPort asciiToLower ⟨testServer1, testTable⟩
      (requestTo emptyRequest "127.0.0.1:9010" "/v1/ping") "127.0.0.1" "9010" (by decide)
      (by
        intro e he p hp
        simp only [testTable, List.mem_cons, List.mem_singleton, List.not_mem_nil, or_false] at he
        rcases he with rfl | rfl
        · simp only [Iface.str.injEq] at hp
          subst hp
          decide
        · simp only [Iface.str.injEq] at hp
          subst hp
          decide)⟩

/-! ## Protocol upgrade -/

/-- C10: a routed request (host split, non-empty backend selected) is tunnelled as a WebSocket
upgrade exactly when `r.Header` has at least one `Connection` value and at least one `Upgrade`
value and the first `Upgrade` value is `websocket` after `strings.ToLower`; otherwise it is
forwarded by round trip. The `Connection` values enter only through their number. -/
theorem websocket_detection (split : String → Option (String × String))
    (lower : String → String) (rh : RequestHandler) (r : Request) (host port backend : String)
    (pb : List Entry) (hsplit : split r.Host = some (host, port))
    (hb : Backend rh.PathBackends (host ++ r.URLPath) = some (backend, pb))
    (hne : backend ≠ "") :
    ((∃ out, ServeHTTP split lower rh r = some (Served.tunnel out, ⟨rh.Frontend, pb⟩))
        ↔ (GoMap.index r.Header "Connection" ≠ []
            ∧ ∃ v rest, GoMap.index r.Header "Upgrade" = v :: rest ∧ lower v = "websocket"))
      ∧ ((∃ out, ServeHTTP split lower rh r = some (Served.roundTrip out, ⟨rh.Frontend, pb⟩))
        ↔ ¬ (GoMap.index r.Header "Connection" ≠ []
            ∧ ∃ v rest, GoMap.index r.Header "Upgrade" = v :: rest ∧ lower v = "websocket")) := by
  obtain ⟨out, _, h2, h3⟩ := ServeHTTP_backend split lower rh r host port backend pb hsplit hb hne
  have hcond : isWebsocket lower out.Header = true
      ↔ (GoMap.index r.Header "Connection" ≠ []
          ∧ ∃ v rest, GoMap.index r.Header "Upgrade" = v :: rest ∧ lower v = "websocket") := by
    rw [isWebsocket_iff, h3 "Connection" (by decide), h3 "Upgrade" (by decide)]
    constructor
    · rintro ⟨hc, _, v, hv, hl⟩
      refine ⟨List.ne_nil_of_length_pos hc, ?_⟩
      cases hu : GoMap.index r.Header "Upgrade" with
      | nil => simp [hu] at hv
      | cons x rest =>
        rw [hu, List.head?_cons, Option.some.injEq] at hv
        exact ⟨x, rest, rfl, by rw [hv]; exact hl⟩
    · rintro ⟨hc, v, rest, hu, hl⟩
      exact ⟨List.length_pos.mpr hc, by rw [hu]; exact Nat.succ_pos _, v, by rw [hu]; rfl, hl⟩
  rw [h2]
  by_cases hw : isWebsocket lower out.Header = true
  · have hc := hcond.mp hw
    simp only [hw, if_true]
    constructor
    · exact ⟨fun _ => hc, fun _ => ⟨out, rfl⟩⟩
    · constructor
      · rintro ⟨o, ho⟩
        simp at ho
      · intro hn
        exact absurd hc hn
  · have hc : ¬ _ := fun h => hw (hcond.mpr h)
    simp only [hw]
    constructor
    · constructor
      · rintro ⟨o, ho⟩
        simp at ho
      · intro h
        exact absurd h hc
    · exact ⟨fun _ => hc, fun _ => ⟨out, rfl⟩⟩

/-- C10 on the test table: `Upgrade: WebSocket` with `Connection: keep-alive` is tunnelled. -/
theorem websocket_detection_witness :
    ∃ out, ServeHTTP netSplitHostPort asciiToLower ⟨testServer1, testTable⟩
        ⟨"/ws", "", "", "/ws", "localhost:9010", "10.0.0.1:5000",
          [("Connection", ["keep-alive"]), ("Upgrade", ["WebSocket"])]⟩
      = some (Served.tunnel out, ⟨testServer1,
          [(Iface.str "localhost", Iface.chan ⟨2, ["localhost:9009", "localhost:9010"]⟩),
           (Iface.str "localhost/v1/ping", Iface.chan ⟨1, ["localhost:9000"]⟩)]⟩) :=
  (websocket_detection netSplitHostPort asciiToLower ⟨testServer1, testTable⟩
    ⟨"/ws", "", "", "/ws", "localhost:9010", "10.0.0.1:5000",
      [("Connection", ["keep-alive"]), ("Upgrade", ["WebSocket"])]⟩
    "localhost" "9010" "localhost:9010" _ (by decide) (by decide) (by decide)).1.mpr
    ⟨by decide, "WebSocket", [], by decide, by decide⟩

/-! ## The routing scenario -/

/-- C3: the scenario. Frontend paths `localhost/google`, `localhost`; map
`localhost/google -> [a:1]`, `localhost -> [b:1, b:2]`, enumerated in either order; any
`SplitHostPort` that splits `localhost:9010` into `localhost` and `9010`. `Frontend.Run`
completes on the `paths` handed over by `Between.Run`, and four sequential requests to
`localhost:9010`, with paths `/google`, `/anything`, `/anything`, `/anything` (all other request
fields arbitrary), are sent to `a:1`, `b:1`, `b:2`, `b:1`. -/
theorem scenario_routing (split : String → Option (String × String)) (lower : String → String)
    (hsplit : split "localhost:9010" = some ("localhost", "9010"))
    (c : Config) (f : Frontend) (hfp : f.Paths = ["localhost/google", "localhost"])
    (hc : c.Paths = scenarioPaths ∨ c.Paths = scenarioPaths.reverse)
    (paths : List GoMap) (hlaunch : (f, paths) ∈ Between.Run c) (rg r1 r2 r3 : Request) :
    ∃ rh served rh2, f.Run paths = some rh
      ∧ ServeAll split lower rh
          [requestTo rg "localhost:9010" "/google", requestTo r1 "localhost:9010" "/anything",
           requestTo r2 "localhost:9010" "/anything", requestTo r3 "localhost:9010" "/anything"]
        = some (served, rh2)
      ∧ served.map Served.backend = [some "a:1", some "b:1", some "b:2", some "b:1"] := by
  obtain ⟨_, _, hp⟩ := launch_paths c f paths hlaunch
  have hpaths : paths = [[("localhost/google", ["a:1"])], [("localhost", ["b:1", "b:2"])]] := by
    rw [hp, hfp]
    rcases hc with hc | hc <;> rw [hc] <;> decide
  have hrun : f.Run paths = some ⟨f, scenarioTable⟩ := by
    rw [Frontend_Run_eq, hpaths]
    rfl
  have hb1 : Backend scenarioTable ("localhost" ++ "/google") = some ("a:1", scenarioTable) := by
    decide
  have hb2 : Backend scenarioTable ("localhost" ++ "/anything")
      = some ("b:1", [(Iface.str "localhost/google", Iface.chan ⟨1, ["a:1"]⟩),
          (Iface.str "localhost", Iface.chan ⟨2, ["b:2", "b:1"]⟩)]) := by decide
  have hb3 : Backend [(Iface.str "localhost/google", Iface.chan ⟨1, ["a:1"]⟩),
        (Iface.str "localhost", Iface.chan ⟨2, ["b:2", "b:1"]⟩)] ("localhost" ++ "/anything")
      = some ("b:2", scenarioTable) := by decide
  obtain ⟨s1, hs1, hsb1⟩ := ServeHTTP_routed split lower ⟨f, scenarioTable⟩
    (requestTo rg "localhost:9010" "/google") "localhost" "9010" "a:1" _ hsplit hb1 (by decide)
  obtain ⟨s2, hs2, hsb2⟩ := ServeHTTP_routed split lower ⟨f, scenarioTable⟩
    (requestTo r1 "localhost:9010" "/anything") "localhost" "9010" "b:1" _ hsplit hb2 (by decide)
  obtain ⟨s3, hs3, hsb3⟩ := ServeHTTP_routed split lower
    ⟨f, [(Iface.str "localhost/google", Iface.chan ⟨1, ["a:1"]⟩),
      (Iface.str "localhost", Iface.chan ⟨2, ["b:2", "b:1"]⟩)]⟩
    (requestTo r2 "localhost:9010" "/anything") "localhost" "9010" "b:2" _ hsplit hb3 (by decide)
  obtain ⟨s4, hs4, hsb4⟩ := ServeHTTP_routed split lower ⟨f, scenarioTable⟩
    (requestTo r3 "localhost:9010" "/anything") "localhost" "9010" "b:1" _ hsplit hb2 (by decide)
  refine ⟨⟨f, scenarioTable⟩, [s1, s2, s3, s4],
    ⟨f, [(Iface.str "localhost/google", Iface.chan ⟨1, ["a:1"]⟩),
      (Iface.str "localhost", Iface.chan ⟨2, ["b:2", "b:1"]⟩)]⟩, hrun, ?_, ?_⟩
  · simp only [ServeAll, hs1, hs2, hs3, hs4]
  · simp only [List.map_cons, List.map_nil, hsb1, hsb2, hsb3, hsb4]

/-- C3 with the standard-library split and ASCII lowering, on requests with no other field set. -/
theorem scenario_routing_witness :
    ∃ rh served rh2,
      scenarioServer1.Run [[("localhost/google", ["a:1"])], [("localhost", ["b:1", "b:2"])]]
        = some rh
      ∧ ServeAll netSplitHostPort asciiToLower rh
          [requestTo emptyRequest "localhost:9010" "/google",
           requestTo emptyRequest "localhost:9010" "/anything",
           requestTo emptyRequest "localhost:9010" "/anything",
           requestTo emptyRequest "localhost:9010" "/anything"]
        = some (served, rh2)
      ∧ served.map Served.backend = [some "a:1", some "b:1", some "b:2", some "b:1"] :=
  scenario_routing netSplitHostPort asciiToLower (by decide) scenarioConfig scenarioServer1 rfl
    (Or.inl rfl) _ (by decide) emptyRequest emptyRequest emptyRequest emptyRequest

/-! ## Rotation order under concurrency -/

/-- C9, refuted as stated: with backends `a`, `b` and two callers whose selections
overlap (caller 0 borrows `a`, caller 1 borrows `b` and gives it back first, then caller 0 gives
`a` back), the next borrow yields `b` again: the addresses borrowed are `a`, `b`, `b`, which is
not the configured list repeated cyclically. -/
theorem interleaved_borrow_out_of_turn :
    ∃ s, (PoolState.init ["a", "b"]).run
        [PoolOp.borrow 0, PoolOp.borrow 1, PoolOp.giveBack 1, PoolOp.giveBack 0, PoolOp.borrow 0]
        = some s
      ∧ s.borrowed = ["a", "b", "b"] ∧ ¬ CyclicRepeat ["a", "b"] s.borrowed :=
  ⟨⟨⟨2, ["a"]⟩, [(0, "b")], ["a", "b", "b"], ["b", "a"]⟩, by decide, rfl,
    fun h => absurd (h 2 (by decide)) (by decide)⟩

/-- C9, amended: in every execution of interleaved borrow and return steps on one pool, the
addresses borrowed so far followed by the channel content are the configured backends followed
by the addresses given back so far (addresses are borrowed in the order configured, then in the
order in which they were given back); and when selections do not overlap, the addresses
borrowed are the configured backend list repeated cyclically. -/
theorem pool_fifo_rotation (backends : List String) (ops : List PoolOp) (s : PoolState)
    (hrun : (PoolState.init backends).run ops = some s) :
    s.borrowed ++ s.pool.buf = backends ++ s.returned
      ∧ (nonOverlapping ops = true → CyclicRepeat backends s.borrowed) := by
  have hinv := PoolInv_run backends ops _ s (PoolInv_init backends) hrun
  refine ⟨hinv.1, ?_⟩
  intro hno
  obtain ⟨xs, hx1, hx2⟩ := run_nonOverlapping ops _ s hno rfl hrun
  simp only [PoolState.init, List.nil_append] at hx1 hx2
  refine cyclic_of_fifo backends s.borrowed s.returned s.pool.buf hinv.1 ?_
    (fun h => (hinv.2.2 h).1)
  rcases hx2 with hx2 | ⟨b, hx2⟩
  · rw [hx1, hx2]
  · rw [hx1, hx2]
    exact List.prefix_append _ _

/-- C9 amended, on two backends: three selections one after the other borrow `a`, `b`, `a`. -/
theorem pool_fifo_rotation_witness :
    (["a", "b", "a"] : List String) ++ ["b"] = ["a", "b"] ++ ["a", "b"]
      ∧ CyclicRepeat ["a", "b"] ["a", "b", "a"] :=
  ⟨(pool_fifo_rotation ["a", "b"]
      [PoolOp.borrow 0, PoolOp.giveBack 0, PoolOp.borrow 1, PoolOp.giveBack 1, PoolOp.borrow 0]
      ⟨⟨2, ["b"]⟩, [(0, "a")], ["a", "b", "a"], ["a", "b"]⟩ (by decide)).1,
    (pool_fifo_rotation ["a", "b"]
      [PoolOp.borrow 0, PoolOp.giveBack 0, PoolOp.borrow 1, PoolOp.giveBack 1, PoolOp.borrow 0]
      ⟨⟨2, ["b"]⟩, [(0, "a")], ["a", "b", "a"], ["a", "b"]⟩ (by decide)).2 (by decide)⟩

end between
